import Mathlib

/-!
# Verification of the STRAP record-extraction and columnar-materialization core

Shallow embedding of `src/lib.rs` of the strap-gui repository: the line parser
(`StrapTrack::parse_line`), the streaming iterator (`StrapTrackIterator::next`),
schema discovery (`StrapTrack::get_column_names`), the permissive-mode decision
(`StrapTrack::iter`) and the chunked columnar materializer
(`StrapTrack::to_parquet`).

Lines are modelled as `List Char`; Rust `HashMap<String, f64>` is modelled as an
association list with overwrite-on-insert (`hmInsert`); `f64` values are kept
abstract (`parse_line` is parametric in the value parser `pf`), with a concrete
exact-decimal instance `parseF64` into `ℚ` used for the concrete scenarios
(every numeric literal appearing in those scenarios is exactly representable,
so `ℚ` agrees with binary64 there). The unspecified iteration order of Rust's
`HashSet`/`HashMap` is determinized as insertion order.
-/

namespace Strap

/-- A parsed record: Rust's `HashMap<String, f64>` (lib.rs line 28), modelled as an
association list whose lookup/overwrite behaviour matches the hash map.
The list order is a determinization of the hash map's unspecified order. -/
abbrev Record (V : Type) := List (String × V)

/-- Model of `HashMap::insert` (lib.rs line 146): an existing binding for the key
is overwritten (last-write-wins). -/
def hmInsert {V : Type} (m : Record V) (k : String) (v : V) : Record V :=
  m.filter (fun p => p.1 ≠ k) ++ [(k, v)]

/-- Model of `HashMap::get` (lib.rs line 243): the value bound to `k`, if any. -/
def hmGet {V : Type} (m : Record V) (k : String) : Option V :=
  (m.find? (fun p => p.1 = k)).map (fun p => p.2)

/-- The keys of a record (`HashMap::keys`, lib.rs line 108). -/
def recordKeys {V : Type} (m : Record V) : List String :=
  m.map (fun p => p.1)

/-- Rust `str::trim_start`: drop leading whitespace. -/
def trimStart (l : List Char) : List Char := l.dropWhile Char.isWhitespace

/-- Rust `str::trim_end`: drop trailing whitespace. -/
def trimEnd (l : List Char) : List Char := (l.reverse.dropWhile Char.isWhitespace).reverse

/-- Rust `str::trim` (lib.rs line 119). -/
def trim (l : List Char) : List Char := trimEnd (trimStart l)

/-- Accumulator-based splitter; `splitWs` below is the entry point. -/
def splitWsAux : List Char → List Char → List (List Char)
  | cur, [] => if cur = [] then [] else [cur.reverse]
  | cur, c :: rest =>
    if c.isWhitespace then
      if cur = [] then splitWsAux [] rest else cur.reverse :: splitWsAux [] rest
    else splitWsAux (c :: cur) rest

/-- Rust `str::split_whitespace` (lib.rs line 142): maximal runs of
non-whitespace characters, in order; whitespace runs are separators. -/
def splitWs (l : List Char) : List (List Char) := splitWsAux [] l

/-- The marker substring searched for by `line.find("@strap")` (lib.rs line 122). -/
def strapPat : List Char := "@strap".toList

/-- Model of `line.find("@strap")` followed by `&line[pos..]` (lib.rs lines 122-124):
the suffix of the line starting at the first occurrence of the substring
`"@strap"`, or `none` when the substring does not occur. -/
def findStrap : List Char → Option (List Char)
  | [] => none
  | c :: rest =>
    if strapPat.isPrefixOf (c :: rest) then some (c :: rest) else findStrap rest

/-- Model of the pair loop of `parse_line` (lib.rs lines 142-149):
`tokens.chunks(2)` visits consecutive pairs, a trailing chunk of length 1 is
skipped; for a full pair the value token is parsed and, on success, inserted
under the literal key token (`chunk[0].to_string()`).  Parametric in the value
parser `pf` (Rust `str::parse::<f64>`). -/
def pairFold {V : Type} (pf : List Char → Option V) :
    List (List Char) → Record V → Record V
  | k :: v :: rest, m =>
    match pf v with
    | some x => pairFold pf rest (hmInsert m k.asString x)
    | none => pairFold pf rest m
  | _, m => m

/-- The marker-stripping step of `StrapTrack::parse_line` (lib.rs lines
119-138), producing the text that is then split into pairs: the line is
trimmed; if the substring `"@strap"` occurs, everything before it is dropped
and then everything up to the first whitespace character of the remaining
suffix is dropped as well (when no whitespace follows, the suffix itself is
kept; being a single token it will yield no pair), and leading whitespace is
trimmed (`trim_start`, a no-op in the no-whitespace branch); otherwise the
whole trimmed line is used when `all` is true and `none` (yielding the empty
record) is returned when `all` is false. -/
def strippedText (line : List Char) (all : Bool) : Option (List Char) :=
  let t := trim line
  match findStrap t with
  | some after_strap =>
    some (trimStart
      (if after_strap.any Char.isWhitespace then
        after_strap.dropWhile (fun c => !c.isWhitespace)
      else after_strap))
  | none =>
    if all then some t else none

/-- Model of `StrapTrack::parse_line` (lib.rs lines 117-152): marker stripping
followed by the whitespace split and the pairwise fold. -/
def parse_line {V : Type} (pf : List Char → Option V) (line : List Char)
    (all : Bool) : Record V :=
  match strippedText line all with
  | some s => pairFold pf (splitWs s) []
  | none => []

/-- Value of a digit string, most significant first. -/
def digitsToNat (l : List Char) : Nat :=
  l.foldl (fun a c => a * 10 + (c.toNat - 48)) 0

/-- The optional exponent part of a float literal: empty means exponent 0;
otherwise `e`/`E`, an optional sign, and at least one digit. -/
def parseExpPart : List Char → Option Int
  | [] => some 0
  | c :: r =>
    if c = 'e' ∨ c = 'E' then
      match r with
      | '+' :: d => if d ≠ [] ∧ d.all Char.isDigit then some (digitsToNat d) else none
      | '-' :: d => if d ≠ [] ∧ d.all Char.isDigit then some (-(digitsToNat d : Int)) else none
      | d => if d ≠ [] ∧ d.all Char.isDigit then some (digitsToNat d) else none
    else none

/-- Model of Rust `str::parse::<f64>` on the finite-decimal fragment of its
grammar (`[sign] digits [. digits] [eE [sign] digits]`, at least one mantissa
digit), returning the exact decimal value as a rational.  The special forms
`inf`/`infinity`/`NaN` are not modelled; no scenario in this development uses
them, and every literal that is used is exactly representable in binary64, so
the exact value coincides with the `f64` the Rust code stores. -/
def parseF64 (s : List Char) : Option ℚ :=
  let sgn : Int := match s with
    | '-' :: _ => -1
    | _ => 1
  let s1 : List Char := match s with
    | '-' :: r => r
    | '+' :: r => r
    | r => r
  let ip := s1.takeWhile Char.isDigit
  let r1 := s1.dropWhile Char.isDigit
  let fp : List Char := match r1 with
    | '.' :: t => t.takeWhile Char.isDigit
    | _ => []
  let r2 : List Char := match r1 with
    | '.' :: t => t.dropWhile Char.isDigit
    | t => t
  if ip = [] ∧ fp = [] then none
  else
    match parseExpPart r2 with
    | none => none
    | some e =>
      let m : Int := sgn * digitsToNat (ip ++ fp)
      let sc : Int := e - fp.length
      some (mkRat (m * ((10 : Int) ^ sc.toNat)) ((10 : Nat) ^ (-sc).toNat))

/-- Model of repeated `BufRead::read_line` (lib.rs line 32): the file content is
cut into lines, each including its terminating newline; a final unterminated
line is returned as-is; at end of input `read_line` returns `Ok(0)` and the
iteration stops. -/
def readLines : List Char → List (List Char)
  | [] => []
  | c :: rest =>
    if c = '\n' then ['\n'] :: readLines rest
    else
      match readLines rest with
      | [] => [[c]]
      | l :: ls => (c :: l) :: ls

/-- The records produced by streaming a file's decoded content through
`StrapTrackIterator` (lib.rs lines 30-40): one record per line, in line order. -/
def recordsOf {V : Type} (pf : List Char → Option V) (all : Bool)
    (content : List Char) : List (Record V) :=
  (readLines content).map (fun l => parse_line pf l all)

/-- Model of inserting into `HashSet<String>` and draining it
(lib.rs lines 105-112): first-occurrence deduplication.  The `HashSet`
iteration order is unspecified in Rust; it is determinized here as insertion
order.  No ordering property of this list is relied on. -/
def hashSetOf (l : List String) : List String :=
  l.foldl (fun acc k => if k ∈ acc then acc else acc ++ [k]) []

/-- Model of `StrapTrack::get_column_names` (lib.rs lines 104-113): every key of
every record is inserted into a `HashSet`, which is then drained into a vector.
Note: this function performs no sorting. -/
def get_column_names {V : Type} (pf : List Char → Option V) (all : Bool)
    (content : List Char) : List String :=
  hashSetOf ((recordsOf pf all content).flatMap recordKeys)

/-- Strict lexicographic order on character lists: the order Rust uses to
compare `String`s (byte order on UTF-8, which coincides with code-point
order). -/
def lexLt : List Char → List Char → Bool
  | [], [] => false
  | [], _ :: _ => true
  | _ :: _, [] => false
  | a :: as, b :: bs => if a < b then true else if b < a then false else lexLt as bs

/-- `a ≤ b` for Rust `String` ordering. -/
def strLe (a b : String) : Bool := !(lexLt b.toList a.toList)

/-- Insert into a `strLe`-sorted list, keeping it sorted. -/
def insertSorted (x : String) : List String → List String
  | [] => [x]
  | y :: ys => if strLe x y then x :: y :: ys else y :: insertSorted x ys

/-- Model of `Vec::sort` on column names (lib.rs line 221), as insertion sort;
on a duplicate-free input every comparison sort yields this same list. -/
def sortStrings (l : List String) : List String := l.foldr insertSorted []

/-- Fuel-driven chunking; `chunksOf` below passes the list length as fuel, which
is always sufficient, so the fuel-exhausted branch is unreachable. -/
def chunksGo {α : Type} (c : Nat) : Nat → List α → List (List α)
  | _, [] => []
  | 0, _ :: _ => []
  | fuel + 1, x :: xs => (x :: xs.take (c - 1)) :: chunksGo c fuel (xs.drop (c - 1))

/-- Model of itertools `chunks(c)` (lib.rs line 235) for `c ≥ 1`: consecutive
groups of `c` elements, the last group possibly shorter.  itertools documents
that `chunks(0)` panics; that case is excluded at the call site in
`to_parquet` below. -/
def chunksOf {α : Type} (c : Nat) (l : List α) : List (List α) :=
  chunksGo c l.length l

/-- One column batch (lib.rs lines 240-246): for every schema column, in schema
order, the chunk's values for that column, with `none` where the record lacks
the key (`row.get(col).copied()`). -/
def batchCols {V : Type} (schema : List String) (chunk : List (Record V)) :
    List (List (Option V)) :=
  schema.map (fun col => chunk.map (fun r => hmGet r col))

/-- The schema used by `to_parquet` (lib.rs lines 219-227): the discovered
column names, sorted. -/
def schemaOf {V : Type} (pf : List Char → Option V) (all : Bool)
    (content : List Char) : List String :=
  sortStrings (get_column_names pf all content)

/-- The sequence of column batches written by `to_parquet`
(lib.rs lines 235-253): one batch per chunk of `chunk_size` consecutive
records. -/
def batchesOf {V : Type} (pf : List Char → Option V) (all : Bool)
    (content : List Char) (chunk_size : Nat) : List (List (List (Option V))) :=
  (chunksOf chunk_size (recordsOf pf all content)).map
    (batchCols (schemaOf pf all content))

/-- Model of the logical output of `StrapTrack::to_parquet`
(lib.rs lines 211-257): the sorted column names (schema) and the sequence of
column batches, one per chunk of `chunk_size` consecutive records.  `none`
models the panic of itertools `chunks(0)` (to_parquet never returns on
`chunk_size = 0`). -/
def to_parquet {V : Type} (pf : List Char → Option V) (all : Bool)
    (content : List Char) (chunk_size : Nat) :
    Option (List String × List (List (List (Option V)))) :=
  if chunk_size = 0 then none
  else some (schemaOf pf all content, batchesOf pf all content chunk_size)

/-- The full materialized column `j`, across all batches of one output, in row
order (the batches are appended to one parquet file, lib.rs line 252). -/
def flatColumn {V : Type} (batches : List (List (List (Option V)))) (j : Nat) :
    List (Option V) :=
  (batches.map (fun b => b.getD j [])).flatten

/-- State of the reader feeding `StrapTrackIterator` (lib.rs lines 22-25): the
queue of outcomes of the successive `read_line` calls (`Except.error` an I/O
failure, `Except.ok` a line); the empty queue is end-of-stream (`Ok(0)`). -/
structure IterState where
  all : Bool
  reads : List (Except String (List Char))

/-- Model of `StrapTrackIterator::next` (lib.rs lines 30-40): one `read_line`
call per invocation; EOF yields `none`, a read line yields
`some (ok (parse_line …))`, a read error yields `some (error e)`; in every
case the rest of the queue remains pollable. -/
def iterNext {V : Type} (pf : List Char → Option V) (st : IterState) :
    Option (Except String (Record V)) × IterState :=
  match st.reads with
  | [] => (none, st)
  | Except.ok line :: rest =>
    (some (Except.ok (parse_line pf line st.all)), ⟨st.all, rest⟩)
  | Except.error e :: rest => (some (Except.error e), ⟨st.all, rest⟩)

/-- Lowercasing of a path string (`to_string_lossy().to_lowercase()`,
lib.rs line 157), character by character (exact for ASCII paths). -/
def lowerL (s : List Char) : List Char := s.map Char.toLower

/-- Model of the permissive-mode decision in `StrapTrack::iter`
(lib.rs lines 155-166): the lowercased path string ends with `".strap"` or
with `".strap"` followed by one of the recognized compression suffixes. -/
def iterAll (path : List Char) : Bool :=
  let p := lowerL path
  ".strap".toList.isSuffixOf p
  || ".strap.gz".toList.isSuffixOf p
  || ".strap.gzip".toList.isSuffixOf p
  || ".strap.zst".toList.isSuffixOf p
  || ".strap.zstd".toList.isSuffixOf p
  || ".strap.zip".toList.isSuffixOf p

/-- Drop the last `n` characters. -/
def stripSuffixN (p : List Char) (n : Nat) : List Char := p.take (p.length - n)

/-- From the spec's words (§6): strip one recognized compression suffix
(`.gz`, `.gzip`, `.zst`, `.zstd`, `.zip`) from the end of the path, if present.
These five suffixes are mutually exclusive as endings, so the order of the
tests does not matter. -/
def stripCompressionSuffix (p : List Char) : List Char :=
  if ".gz".toList.isSuffixOf p then stripSuffixN p 3
  else if ".gzip".toList.isSuffixOf p then stripSuffixN p 5
  else if ".zst".toList.isSuffixOf p then stripSuffixN p 4
  else if ".zstd".toList.isSuffixOf p then stripSuffixN p 5
  else if ".zip".toList.isSuffixOf p then stripSuffixN p 4
  else p

/-- From the spec's words (§6, claim C7): a path is parsed permissively iff,
case-insensitively and after stripping any recognized compression suffix, it
ends in the telemetry suffix `".strap"`. -/
def permissiveSpec (path : List Char) : Bool :=
  ".strap".toList.isSuffixOf (stripCompressionSuffix (lowerL path))

/-- From the spec's words (claim C3): a token is a marker iff it is literally
`"@strap"` followed by digits only. -/
def specMarkerToken (t : List Char) : Bool :=
  strapPat.isPrefixOf t && (t.drop 6).all Char.isDigit

/-- Parse every token of a list, succeeding only when all parse; used to state
claims about lines all of whose value tokens parse. -/
def parseAll {V : Type} (pf : List Char → Option V) :
    List (List Char) → Option (List V)
  | [] => some []
  | v :: vs =>
    match pf v, parseAll pf vs with
    | some w, some ws => some (w :: ws)
    | _, _ => none

/-- The token sequence `k₁ v₁ k₂ v₂ …` formed by alternating keys and values;
used to state claims about lines whose tokens pair up evenly. -/
def zipFlat {α : Type} : List α → List α → List α
  | k :: ks, v :: vs => k :: v :: zipFlat ks vs
  | _, _ => []

/-- The three-line source of the scenario in spec §8 (claim C1). -/
def c1content : List Char := "a 1.0 b 2.0\nc 3.0 d 4.0\na 5.0 e 6.0\n".toList

/-! ## Chunking and materialization lemmas -/

theorem chunksGo_flatten {α : Type} (c : Nat) (_hc : 1 ≤ c) :
    ∀ fuel (l : List α), l.length ≤ fuel → (chunksGo c fuel l).flatten = l := by
  intro fuel
  induction fuel with
  | zero =>
    intro l hl
    cases l with
    | nil => rfl
    | cons x xs => simp at hl
  | succ n ih =>
    intro l hl
    cases l with
    | nil => rfl
    | cons x xs =>
      show ((x :: xs.take (c - 1)) :: chunksGo c n (xs.drop (c - 1))).flatten = x :: xs
      rw [List.flatten_cons, ih (xs.drop (c - 1))]
      · simp [List.take_append_drop]
      · rw [List.length_drop]
        simp only [List.length_cons] at hl
        omega

theorem chunksOf_flatten {α : Type} (c : Nat) (hc : 1 ≤ c) (l : List α) :
    (chunksOf c l).flatten = l :=
  chunksGo_flatten c hc l.length l le_rfl

theorem chunksGo_mem {α : Type} (c : Nat) (hc : 1 ≤ c) :
    ∀ fuel (l : List α) ch, ch ∈ chunksGo c fuel l → ch ≠ [] ∧ ch.length ≤ c := by
  intro fuel
  induction fuel with
  | zero =>
    intro l ch h
    cases l with
    | nil => simp [chunksGo] at h
    | cons x xs => simp [chunksGo] at h
  | succ n ih =>
    intro l ch h
    cases l with
    | nil => simp [chunksGo] at h
    | cons x xs =>
      have h' : ch = x :: xs.take (c - 1) ∨ ch ∈ chunksGo c n (xs.drop (c - 1)) := by
        simpa [chunksGo] using h
      rcases h' with h' | h'
      · subst h'
        refine ⟨by simp, ?_⟩
        have hm : min (c - 1) xs.length ≤ c - 1 := min_le_left _ _
        simp only [List.length_cons, List.length_take]
        omega
      · exact ih _ _ h'

theorem chunksOf_mem {α : Type} (c : Nat) (hc : 1 ≤ c) (l : List α) (ch : List α)
    (h : ch ∈ chunksOf c l) : ch ≠ [] ∧ ch.length ≤ c :=
  chunksGo_mem c hc l.length l ch h

theorem flatColumn_batches {V : Type} (schema : List String)
    (records : List (Record V)) (c : Nat) (hc : 1 ≤ c) (j : Nat)
    (hj : j < schema.length) :
    flatColumn ((chunksOf c records).map (batchCols schema)) j
      = records.map (fun r => hmGet r schema[j]) := by
  unfold flatColumn
  rw [List.map_map]
  have h1 : ∀ ch : List (Record V),
      ((batchCols schema ch).getD j []) = ch.map (fun r => hmGet r schema[j]) := by
    intro ch
    unfold batchCols
    rw [List.getD_eq_getElem?_getD, List.getElem?_map, List.getElem?_eq_getElem hj]
    rfl
  simp only [Function.comp_def, h1]
  rw [← List.map_flatten, chunksOf_flatten c hc]

/-! ## Claim C1: the three-line scenario -/

/-- C1: for the three-line `.strap` source
`"a 1.0 b 2.0\nc 3.0 d 4.0\na 5.0 e 6.0\n"` (parsed permissively), the
conversion pipeline discovers the schema `[a,b,c,d,e]` in that order and
materializes exactly three rows in input line order, with `a=1, b=2` in row 0,
`c=3, d=4` in row 1, `a=5, e=6` in row 2, and nulls everywhere else (shown
here column-major: one batch of five columns of three rows each). -/
theorem C1_three_line_scenario :
    to_parquet parseF64 true c1content 1000 =
      some (["a", "b", "c", "d", "e"],
        [[[some 1, none, some 5],
          [some 2, none, none],
          [none, some 3, none],
          [none, some 4, none],
          [none, none, some 6]]]) := by decide

/-! ## Claim C4: chunk capacity does not affect the logical output -/

/-- C4: for every source and chunk capacities `c₁, c₂ ≥ 1`, materializing with
`c₁` and with `c₂` succeeds with the same schema, the same records in the same
order (the concatenation of the chunks is the record sequence itself, for
either capacity), and the same value-or-null at every (row, column) position
(every fully concatenated column is identical). -/
theorem C4_chunk_capacity_irrelevant {V : Type} (pf : List Char → Option V)
    (all : Bool) (content : List Char) (c₁ c₂ : Nat) (h₁ : 1 ≤ c₁)
    (h₂ : 1 ≤ c₂) :
    to_parquet pf all content c₁
        = some (schemaOf pf all content, batchesOf pf all content c₁) ∧
    to_parquet pf all content c₂
        = some (schemaOf pf all content, batchesOf pf all content c₂) ∧
    (chunksOf c₁ (recordsOf pf all content)).flatten
        = (chunksOf c₂ (recordsOf pf all content)).flatten ∧
    ∀ j, j < (schemaOf pf all content).length →
      flatColumn (batchesOf pf all content c₁) j
        = flatColumn (batchesOf pf all content c₂) j := by
  refine ⟨?_, ?_, ?_, ?_⟩
  · unfold to_parquet
    rw [if_neg (by omega)]
  · unfold to_parquet
    rw [if_neg (by omega)]
  · rw [chunksOf_flatten c₁ h₁, chunksOf_flatten c₂ h₂]
  · intro j hj
    unfold batchesOf
    rw [flatColumn_batches _ _ c₁ h₁ j hj, flatColumn_batches _ _ c₂ h₂ j hj]

/-- Witness for C4 at capacities 1 and 2 on the scenario source. -/
theorem C4_chunk_capacity_irrelevant_witness :
    1 ≤ 1 ∧ 1 ≤ 2 ∧
    to_parquet parseF64 true c1content 1
      = some (schemaOf parseF64 true c1content,
              batchesOf parseF64 true c1content 1) :=
  ⟨by decide, by decide,
    (C4_chunk_capacity_irrelevant parseF64 true c1content 1 2 (by decide)
      (by decide)).1⟩

/-! ## Claim C9: one materialized row per input line -/

/-- C9: every input line contributes exactly one record, hence exactly one row:
the record count equals the line count, every materialized column has one entry
per line, and a line whose record is empty (e.g. a marker-less line in
non-permissive mode) is not skipped but yields `none` (null) in every
column. -/
theorem C9_row_count_equals_line_count {V : Type} (pf : List Char → Option V)
    (all : Bool) (content : List Char) (c : Nat) (hc : 1 ≤ c) :
    (recordsOf pf all content).length = (readLines content).length ∧
    (∀ j, j < (schemaOf pf all content).length →
      (flatColumn (batchesOf pf all content c) j).length
        = (readLines content).length) ∧
    (∀ (i j : Nat), j < (schemaOf pf all content).length →
      (recordsOf pf all content)[i]? = some [] →
      (flatColumn (batchesOf pf all content c) j)[i]? = some none) := by
  refine ⟨by simp [recordsOf], ?_, ?_⟩
  · intro j hj
    unfold batchesOf
    rw [flatColumn_batches _ _ c hc j hj]
    simp [recordsOf]
  · intro i j hj hrec
    unfold batchesOf
    rw [flatColumn_batches _ _ c hc j hj, List.getElem?_map, hrec]
    rfl

/-- Witness for C9 on the scenario source with chunk capacity 2. -/
theorem C9_row_count_equals_line_count_witness :
    1 ≤ 2 ∧
    (recordsOf parseF64 true c1content).length = (readLines c1content).length :=
  ⟨by decide,
    (C9_row_count_equals_line_count parseF64 true c1content 2 (by decide)).1⟩

/-! ## Claim C10: chunk_size precondition -/

/-- C10: `to_parquet` requires `chunk_size ≥ 1`.  With `chunk_size = 0` the
chunking step panics (itertools `chunks(0)`), modelled as `none` — no result is
returned; for every `chunk_size ≥ 1` the conversion returns a result and the
chunking step is total: the chunks concatenate back to the full record
sequence (so every record lies in exactly one chunk, in order) and every chunk
is non-empty with at most `chunk_size` rows. -/
theorem C10_chunk_size_zero_panics {V : Type} (pf : List Char → Option V)
    (all : Bool) (content : List Char) (c : Nat) :
    to_parquet pf all content 0 = none ∧
    (1 ≤ c →
      to_parquet pf all content c
          = some (schemaOf pf all content, batchesOf pf all content c) ∧
      (chunksOf c (recordsOf pf all content)).flatten = recordsOf pf all content ∧
      ∀ ch ∈ chunksOf c (recordsOf pf all content), ch ≠ [] ∧ ch.length ≤ c) := by
  refine ⟨rfl, fun hc => ⟨?_, chunksOf_flatten c hc _, fun ch h => chunksOf_mem c hc _ ch h⟩⟩
  unfold to_parquet
  rw [if_neg (by omega)]

/-- Witness for C10 at chunk capacity 1 on the scenario source. -/
theorem C10_chunk_size_zero_panics_witness :
    1 ≤ 1 ∧
    (chunksOf 1 (recordsOf parseF64 true c1content)).flatten
      = recordsOf parseF64 true c1content :=
  ⟨by decide,
    ((C10_chunk_size_zero_panics parseF64 true c1content 1).2 (by decide)).2.1⟩

/-! ## Pair-fold lemmas -/

theorem hmInsert_of_not_mem {V : Type} (m : Record V) (k : String) (v : V)
    (h : k ∉ recordKeys m) : hmInsert m k v = m ++ [(k, v)] := by
  unfold hmInsert
  congr 1
  rw [List.filter_eq_self]
  intro p hp
  simp only [decide_eq_true_eq]
  intro hk
  unfold recordKeys at h
  exact h (by rw [← hk]; exact List.mem_map_of_mem _ hp)

theorem recordKeys_append {V : Type} (m₁ m₂ : Record V) :
    recordKeys (m₁ ++ m₂) = recordKeys m₁ ++ recordKeys m₂ := by
  unfold recordKeys
  exact List.map_append _ _ _

theorem parseAll_length {V : Type} (pf : List Char → Option V) :
    ∀ (l : List (List Char)) (l' : List V),
      parseAll pf l = some l' → l'.length = l.length := by
  intro l
  induction l with
  | nil =>
    intro l' h
    simp only [parseAll, Option.some.injEq] at h
    simp [← h]
  | cons a l ih =>
    intro l' h
    cases hfa : pf a with
    | none => simp [parseAll, hfa] at h
    | some b =>
      cases hml : parseAll pf l with
      | none => simp [parseAll, hfa, hml] at h
      | some l'' =>
        simp only [parseAll, hfa, hml, Option.some.injEq] at h
        subst h
        simp [ih l'' hml]

theorem pairFold_zipFlat {V : Type} (pf : List Char → Option V) :
    ∀ (ks vs : List (List Char)) (ws : List V) (m : Record V),
      ks.length = vs.length →
      parseAll pf vs = some ws →
      (∀ k ∈ ks, k.asString ∉ recordKeys m) →
      (ks.map List.asString).Nodup →
      pairFold pf (zipFlat ks vs) m = m ++ (ks.map List.asString).zip ws := by
  intro ks
  induction ks with
  | nil =>
    intro vs ws m hlen hmap _ _
    cases vs with
    | nil =>
      simp only [parseAll, Option.some.injEq] at hmap
      subst hmap
      simp [zipFlat, pairFold]
    | cons v vs => simp at hlen
  | cons k ks ih =>
    intro vs ws m hlen hmap hdisj hnodup
    cases vs with
    | nil => simp at hlen
    | cons v vs =>
      cases hw : pf v with
      | none => simp [parseAll, hw] at hmap
      | some w =>
      cases hws' : parseAll pf vs with
      | none => simp [parseAll, hw, hws'] at hmap
      | some ws' =>
      simp only [parseAll, hw, hws', Option.some.injEq] at hmap
      subst hmap
      show pairFold pf (k :: v :: zipFlat ks vs) m = _
      simp only [pairFold, hw]
      rw [hmInsert_of_not_mem m k.asString w (hdisj k (List.mem_cons_self k ks))]
      rw [ih vs ws' (m ++ [(k.asString, w)]) (by simpa using hlen) hws' ?_ ?_]
      · simp [List.append_assoc, List.zip_cons_cons]
      · intro k' hk'
        rw [recordKeys_append]
        simp only [List.mem_append]
        rintro (h | h)
        · exact hdisj k' (List.mem_cons_of_mem _ hk') h
        · simp only [recordKeys, List.map_cons, List.map_nil, List.mem_singleton] at h
          simp only [List.map_cons, List.nodup_cons] at hnodup
          exact hnodup.1 (h ▸ List.mem_map_of_mem _ hk')
      · simp only [List.map_cons, List.nodup_cons] at hnodup
        exact hnodup.2

theorem hmGet_zip {V : Type} :
    ∀ (as : List String) (ws : List V) (i : Nat), as.Nodup →
      as.length = ws.length → ∀ (hi : i < as.length),
      hmGet (as.zip ws) as[i] = ws[i]? := by
  intro as
  induction as with
  | nil => intro ws i _ _ hi; simp at hi
  | cons a as ih =>
    intro ws i hnd hlen hi
    cases ws with
    | nil => simp at hlen
    | cons w ws =>
      cases i with
      | zero =>
        simp [hmGet, List.zip_cons_cons, List.find?_cons]
      | succ n =>
        have hn : n < as.length := by simpa using hi
        have hne : ¬ (a = as[n]) := by
          intro h
          exact (List.nodup_cons.mp hnd).1 (h ▸ List.getElem_mem hn)
        simp only [List.zip_cons_cons, hmGet, List.find?_cons,
          List.getElem_cons_succ, List.getElem?_cons_succ, decide_eq_false hne]
        simpa [hmGet] using ih ws n (List.nodup_cons.mp hnd).2
          (by simpa using hlen) hn

theorem pairFold_drop_trailing {V : Type} (pf : List Char → Option V) :
    ∀ (ks vs : List (List Char)) (t : List Char) (m : Record V),
      ks.length = vs.length →
      pairFold pf (zipFlat ks vs ++ [t]) m = pairFold pf (zipFlat ks vs) m := by
  intro ks
  induction ks with
  | nil =>
    intro vs t m hlen
    cases vs with
    | nil => rfl
    | cons v vs => simp at hlen
  | cons k ks ih =>
    intro vs t m hlen
    cases vs with
    | nil => simp at hlen
    | cons v vs =>
      show pairFold pf (k :: v :: (zipFlat ks vs ++ [t])) m
        = pairFold pf (k :: v :: zipFlat ks vs) m
      cases hpv : pf v with
      | some w =>
        simp only [pairFold, hpv]
        exact ih vs t _ (by simpa using hlen)
      | none =>
        simp only [pairFold, hpv]
        exact ih vs t _ (by simpa using hlen)

/-! ## Claim C5: even token count, all values parse -/

/-- C5 (amended): for every line whose text after marker-stripping splits into
tokens `k₁ v₁ … kₙ vₙ` where every value token parses and the key tokens are
pairwise distinct, extraction yields a record with exactly `n` entries, each
keyed by the literal key-token text and mapped to the parsed value of the
following token.  (Without the distinctness hypothesis a later duplicate key
overwrites an earlier one — see the counterexample.) -/
theorem C5_even_valid_pairs {V : Type} (pf : List Char → Option V)
    (line : List Char) (all : Bool) (s : List Char)
    (ks vs : List (List Char)) (ws : List V)
    (hs : strippedText line all = some s)
    (htok : splitWs s = zipFlat ks vs)
    (hlen : ks.length = vs.length)
    (hws : parseAll pf vs = some ws)
    (hnd : (ks.map List.asString).Nodup) :
    parse_line pf line all = (ks.map List.asString).zip ws ∧
    (parse_line pf line all).length = ks.length ∧
    ∀ (i : Nat) (hi : i < ks.length),
      hmGet (parse_line pf line all) ((ks[i]).asString) = ws[i]? := by
  have hws_len : ws.length = vs.length := parseAll_length pf vs ws hws
  have hrec : parse_line pf line all = (ks.map List.asString).zip ws := by
    unfold parse_line
    rw [hs]
    show pairFold pf (splitWs s) [] = _
    rw [htok]
    simpa using pairFold_zipFlat pf ks vs ws [] hlen hws
      (by simp [recordKeys]) hnd
  refine ⟨hrec, ?_, ?_⟩
  · rw [hrec, List.length_zip, List.length_map]
    omega
  · intro i hi
    rw [hrec]
    have hi' : i < (ks.map List.asString).length := by simpa using hi
    have := hmGet_zip (ks.map List.asString) ws i hnd
      (by rw [List.length_map]; omega) hi'
    rwa [List.getElem_map] at this

/-- Witness for C5 on the line `"damage 15.0 attacker_alice 1.0"` (permissive). -/
theorem C5_even_valid_pairs_witness :
    strippedText "damage 15.0 attacker_alice 1.0".toList true
        = some "damage 15.0 attacker_alice 1.0".toList ∧
    splitWs "damage 15.0 attacker_alice 1.0".toList
        = zipFlat ["damage".toList, "attacker_alice".toList]
            ["15.0".toList, "1.0".toList] ∧
    parse_line parseF64 "damage 15.0 attacker_alice 1.0".toList true
        = [("damage", 15), ("attacker_alice", 1)] :=
  ⟨by decide, by decide, by
    have h := (C5_even_valid_pairs parseF64
      "damage 15.0 attacker_alice 1.0".toList true
      "damage 15.0 attacker_alice 1.0".toList
      ["damage".toList, "attacker_alice".toList]
      ["15.0".toList, "1.0".toList] [15, 1]
      (by decide) (by decide) (by decide) (by decide) (by decide)).1
    rw [h]; decide⟩

/-- C5 counterexample: the line `"a 1.0 a 2.0"` (permissive) has `n = 2` valid
`(key, numeric)` pairs after marker-stripping, but extraction yields a record
with a single entry, not two: the duplicate key is overwritten
(last-write-wins). -/
theorem C5_counterexample_duplicate_key :
    parse_line parseF64 "a 1.0 a 2.0".toList true = [("a", 2)] ∧
    (parse_line parseF64 "a 1.0 a 2.0".toList true).length ≠ 2 := by decide

/-! ## Claim C6: malformed pairs are dropped, the line never fails -/

/-- C6: extraction recovers from malformed pairs by dropping only the offending
tokens: (i) in general, a trailing unpaired token after any even run of pairs
is dropped, leaving the fold over the preceding pairs unchanged; (ii) on
`"key1 1.0 key2"` (permissive) the unpaired `key2` is dropped and `key1 ↦ 1`
is kept as the only entry; (iii) on `"key1 invalid_float key2 2.0"`
(permissive) the pair with an unparsable value is dropped and `key2 ↦ 2` is
kept as the only entry.  `parse_line` is total, so no line ever fails as a
whole. -/
theorem C6_drop_offending_tokens :
    (∀ {V : Type} (pf : List Char → Option V) (ks vs : List (List Char))
        (t : List Char) (m : Record V), ks.length = vs.length →
        pairFold pf (zipFlat ks vs ++ [t]) m = pairFold pf (zipFlat ks vs) m) ∧
    (hmGet (parse_line parseF64 "key1 1.0 key2".toList true) "key1" = some 1 ∧
     hmGet (parse_line parseF64 "key1 1.0 key2".toList true) "key2" = none ∧
     (parse_line parseF64 "key1 1.0 key2".toList true).length = 1) ∧
    (hmGet (parse_line parseF64 "key1 invalid_float key2 2.0".toList true)
        "key2" = some 2 ∧
     hmGet (parse_line parseF64 "key1 invalid_float key2 2.0".toList true)
        "key1" = none ∧
     (parse_line parseF64 "key1 invalid_float key2 2.0".toList true).length
        = 1) := by
  refine ⟨?_, by decide, by decide⟩
  intro V pf ks vs t m h
  exact pairFold_drop_trailing pf ks vs t m h

/-- Witness for C6: the general trailing-token clause applied to the pair list
of `"key1 1.0"` with trailing token `"key2"`. -/
theorem C6_drop_offending_tokens_witness :
    ["key1".toList].length = ["1.0".toList].length ∧
    pairFold parseF64 (zipFlat ["key1".toList] ["1.0".toList]
        ++ ["key2".toList]) []
      = pairFold parseF64 (zipFlat ["key1".toList] ["1.0".toList])
          ([] : Record ℚ) :=
  ⟨by decide, C6_drop_offending_tokens.1 parseF64 ["key1".toList]
    ["1.0".toList] "key2".toList [] (by decide)⟩

/-! ## Claim C2: schema discovery -/

theorem hashSetFold_spec :
    ∀ (l acc : List String), acc.Nodup →
      (l.foldl (fun a k => if k ∈ a then a else a ++ [k]) acc).Nodup ∧
      ∀ k, k ∈ l.foldl (fun a k => if k ∈ a then a else a ++ [k]) acc
        ↔ k ∈ acc ∨ k ∈ l := by
  intro l
  induction l with
  | nil =>
    intro acc h
    refine ⟨h, fun k => by simp⟩
  | cons a l ih =>
    intro acc hacc
    simp only [List.foldl_cons]
    by_cases ha : a ∈ acc
    · rw [if_pos ha]
      obtain ⟨h1, h2⟩ := ih acc hacc
      refine ⟨h1, fun k => ?_⟩
      rw [h2 k]
      simp only [List.mem_cons]
      constructor
      · rintro (h | h)
        · exact Or.inl h
        · exact Or.inr (Or.inr h)
      · rintro (h | h | h)
        · exact Or.inl h
        · exact Or.inl (h ▸ ha)
        · exact Or.inr h
    · rw [if_neg ha]
      have hnd : (acc ++ [a]).Nodup := by
        rw [List.nodup_append]
        refine ⟨hacc, List.nodup_singleton a, ?_⟩
        intro x hx hxa
        rw [List.mem_singleton] at hxa
        exact ha (hxa ▸ hx)
      obtain ⟨h1, h2⟩ := ih (acc ++ [a]) hnd
      refine ⟨h1, fun k => ?_⟩
      rw [h2 k]
      simp only [List.mem_append, List.mem_singleton, List.mem_cons]
      tauto

/-- C2 (amended): `get_column_names` returns the set of all keys observed
across all records — deduplicated (no key appears twice), and containing a
key iff some record of the source contains it.  No ordering of the result is
guaranteed: the keys are drained from a `HashSet`, whose iteration order is
unspecified, and `get_column_names` performs no sort (sorting happens later,
inside `to_parquet`) — see the counterexample. -/
theorem C2_column_names_dedup_complete {V : Type} (pf : List Char → Option V)
    (all : Bool) (content : List Char) :
    (get_column_names pf all content).Nodup ∧
    ∀ k, k ∈ get_column_names pf all content
      ↔ ∃ r ∈ recordsOf pf all content, k ∈ recordKeys r := by
  unfold get_column_names hashSetOf
  obtain ⟨h1, h2⟩ :=
    hashSetFold_spec ((recordsOf pf all content).flatMap recordKeys) []
      List.nodup_nil
  refine ⟨h1, fun k => ?_⟩
  rw [h2 k]
  simp [List.mem_flatMap]

/-- C2 counterexample: on the one-line source `"b 1.0 a 2.0\n"` (permissive
mode), `get_column_names` — with the `HashSet` iteration determinized as
insertion order — returns `["b", "a"]`, which is not lexicographically
sorted: the claim's "returns them sorted lexicographically" does not hold of
the code, which never sorts this list. -/
theorem C2_counterexample_unsorted :
    get_column_names parseF64 true "b 1.0 a 2.0\n".toList = ["b", "a"] ∧
    ¬ List.Sorted (fun x y : String => strLe x y = true)
        (get_column_names parseF64 true "b 1.0 a 2.0\n".toList) ∧
    sortStrings (get_column_names parseF64 true "b 1.0 a 2.0\n".toList)
      = ["a", "b"] := by
  refine ⟨by decide, ?_, by decide⟩
  intro h
  have : get_column_names parseF64 true "b 1.0 a 2.0\n".toList = ["b", "a"] :=
    by decide
  rw [this] at h
  have hba : strLe "b" "a" = true := List.rel_of_sorted_cons h "a" (by simp)
  exact absurd hba (by decide)

/-! ## Claim C8: the streaming record sequence -/

/-- C8: `StrapTrackIterator::next` performs exactly one underlying read per
element: at end-of-stream it yields `none`; a read line yields exactly one
`ok` record; a read failure yields exactly one `error` element and does not
self-terminate the sequence — the state after the error is the remaining
queue, which can still be polled (polling after an error followed by a line
yields that line's record). -/
theorem C8_one_element_per_read {V : Type} (pf : List Char → Option V) :
    (∀ all : Bool, iterNext pf ⟨all, []⟩ = (none, ⟨all, []⟩)) ∧
    (∀ (all : Bool) (line : List Char)
        (rest : List (Except String (List Char))),
      iterNext pf ⟨all, Except.ok line :: rest⟩
        = (some (Except.ok (parse_line pf line all)), ⟨all, rest⟩)) ∧
    (∀ (all : Bool) (e : String) (rest : List (Except String (List Char))),
      iterNext pf ⟨all, Except.error e :: rest⟩
        = (some (Except.error e), ⟨all, rest⟩)) ∧
    (∀ (all : Bool) (e : String) (line : List Char)
        (rest : List (Except String (List Char))),
      iterNext pf
          (iterNext (V := V) pf ⟨all, Except.error e :: Except.ok line :: rest⟩).2
        = (some (Except.ok (parse_line pf line all)), ⟨all, rest⟩)) :=
  ⟨fun _ => rfl, fun _ _ _ => rfl, fun _ _ _ => rfl, fun _ _ _ _ => rfl⟩

/-! ## Claim C3: marker detection and stripping -/

theorem splitWsAux_all_not_ws :
    ∀ (l cur : List Char), l.all (fun c => !c.isWhitespace) = true →
      splitWsAux cur l
        = if cur.reverse ++ l = [] then [] else [cur.reverse ++ l] := by
  intro l
  induction l with
  | nil =>
    intro cur _
    simp only [splitWsAux, List.append_nil]
    by_cases h : cur = []
    · simp [h]
    · rw [if_neg h, if_neg (by simpa using h)]
  | cons c rest ih =>
    intro cur hall
    rw [List.all_cons, Bool.and_eq_true] at hall
    have hc : c.isWhitespace = false := by
      have := hall.1
      simpa using this
    simp only [splitWsAux, hc, Bool.false_eq_true, if_false]
    rw [ih (c :: cur) hall.2]
    simp [List.append_assoc]

theorem splitWs_single (l : List Char) (hne : l ≠ [])
    (hall : l.all (fun c => !c.isWhitespace) = true) : splitWs l = [l] := by
  unfold splitWs
  rw [splitWsAux_all_not_ws l [] hall]
  simp [hne]

theorem splitWs_trimStart : ∀ l : List Char, splitWs (trimStart l) = splitWs l := by
  intro l
  induction l with
  | nil => rfl
  | cons c rest ih =>
    unfold trimStart at ih ⊢
    cases hc : c.isWhitespace
    · rw [List.dropWhile_cons, hc]
      simp only [Bool.false_eq_true, if_false]
    · rw [List.dropWhile_cons, hc]
      simp only [if_true]
      rw [ih]
      show splitWsAux [] rest = splitWsAux [] (c :: rest)
      simp [splitWsAux, hc]

theorem dropWhile_append_of_all {p : Char → Bool} (pre l : List Char)
    (h : pre.all p = true) :
    List.dropWhile p (pre ++ l) = List.dropWhile p l := by
  rw [List.dropWhile_append]
  have : List.dropWhile p pre = [] := List.dropWhile_eq_nil_iff.mpr
    (fun x hx => List.all_eq_true.mp h x hx)
  simp [this]

/-- C3 (amended): the extractor treats as a marker the first occurrence of the
substring `"@strap"` anywhere in the trimmed line — regardless of token
boundaries and regardless of which characters follow it (not only digits).
When it occurs, everything up to the end of the marker's surrounding
non-whitespace run (`mid`), together with the following whitespace run, is
discarded and only the remainder (`post`) is parsed into pairs, identically in
permissive and non-permissive modes (`all` is not consulted on this path). -/
theorem C3_substring_marker_stripping {V : Type} (pf : List Char → Option V)
    (all : Bool) (line mid post : List Char)
    (hfind : findStrap (trim line) = some (strapPat ++ (mid ++ post)))
    (hmid : mid.all (fun c => !c.isWhitespace) = true)
    (hpost : post.head?.all Char.isWhitespace = true) :
    parse_line pf line all = pairFold pf (splitWs post) [] := by
  unfold parse_line strippedText
  simp only [hfind]
  show pairFold pf (splitWs (trimStart
    (if (strapPat ++ (mid ++ post)).any Char.isWhitespace then
      (strapPat ++ (mid ++ post)).dropWhile (fun c => !c.isWhitespace)
    else strapPat ++ (mid ++ post)))) [] = _
  have hpre : (strapPat ++ mid).all (fun c => !c.isWhitespace) = true := by
    rw [List.all_append]
    exact by rw [hmid]; decide
  cases post with
  | nil =>
    have hany : (strapPat ++ (mid ++ [])).any Char.isWhitespace = false := by
      rw [List.any_eq_false]
      intro x hx
      simp only [List.append_nil] at hx
      have := List.all_eq_true.mp hpre x (by simpa using hx)
      simpa using this
    rw [hany]
    simp only [Bool.false_eq_true, if_false]
    have hsingle : splitWs (trimStart (strapPat ++ (mid ++ []))) = [strapPat ++ (mid ++ [])] := by
      rw [splitWs_trimStart]
      refine splitWs_single _ (by simp [strapPat]) ?_
      simpa using hpre
    rw [hsingle]
    rfl
  | cons w post' =>
    have hw : w.isWhitespace = true := by simpa using hpost
    have hany : (strapPat ++ (mid ++ (w :: post'))).any Char.isWhitespace = true := by
      rw [List.any_eq_true]
      exact ⟨w, by simp, hw⟩
    rw [hany]
    simp only [if_true]
    rw [← List.append_assoc, dropWhile_append_of_all (strapPat ++ mid) _ hpre]
    rw [List.dropWhile_cons]
    simp only [hw, Bool.not_true, Bool.false_eq_true, if_false]
    rw [splitWs_trimStart]

/-- Witness for C3 on the line `"x @strap1 k 1.0"` in non-permissive mode:
the marker's run is `"@strap1"` (`mid = "1"`), the remainder `" k 1.0"` is
parsed. -/
theorem C3_substring_marker_stripping_witness :
    findStrap (trim "x @strap1 k 1.0".toList)
        = some (strapPat ++ ("1".toList ++ " k 1.0".toList)) ∧
    parse_line parseF64 "x @strap1 k 1.0".toList false
        = pairFold parseF64 (splitWs " k 1.0".toList) [] :=
  ⟨by decide,
    C3_substring_marker_stripping parseF64 false "x @strap1 k 1.0".toList
      "1".toList " k 1.0".toList (by decide) (by decide) (by decide)⟩

/-- C3 counterexample: in the line `"@strapx k 1.0"` no token has the form
`@strap` followed by (optional) digits — `"@strapx"` does not qualify — yet in
non-permissive mode the extractor still treats it as a marker and parses the
remainder, yielding `{k ↦ 1}` instead of the empty record the claim requires:
the code matches the substring `"@strap"` regardless of what follows it. -/
theorem C3_counterexample_nondigit_marker :
    (splitWs "@strapx k 1.0".toList).any specMarkerToken = false ∧
    parse_line parseF64 "@strapx k 1.0".toList false = [("k", 1)] ∧
    parse_line parseF64 "@strapx k 1.0".toList false ≠ [] := by decide

/-! ## Claim C7: permissive mode is decided by the path suffix -/

theorem suffix_append_iff {α : Type} (a b s : List α) :
    (a ++ b) <:+ s ↔ b <:+ s ∧ a <:+ s.take (s.length - b.length) := by
  constructor
  · rintro ⟨t, ht⟩
    have hs : s = (t ++ a) ++ b := by rw [← ht, List.append_assoc]
    refine ⟨⟨t ++ a, hs.symm⟩, ?_⟩
    have hlen : s.length - b.length = (t ++ a).length := by
      rw [hs]; simp [List.length_append]; omega
    rw [hlen, hs, List.take_left]
    exact List.suffix_append t a
  · rintro ⟨⟨u, hu⟩, ha⟩
    have hlen : s.length - b.length = u.length := by
      rw [← hu]; simp [List.length_append]
    rw [hlen, ← hu, List.take_left] at ha
    obtain ⟨w, hw⟩ := ha
    exact ⟨w, by rw [← hu, ← hw, List.append_assoc]⟩

theorem suffix_of_suffix_le {α : Type} (a b s : List α) (ha : a <:+ s)
    (hb : b <:+ s) (hlen : a.length ≤ b.length) : a <:+ b := by
  have hbs := hb.length_le
  have h1 : a = s.drop (s.length - a.length) := List.suffix_iff_eq_drop.mp ha
  have h2 : b = s.drop (s.length - b.length) := List.suffix_iff_eq_drop.mp hb
  have key : b.drop (b.length - a.length) = a := by
    nth_rewrite 2 [h2]
    rw [List.drop_drop]
    rw [show s.length - b.length + (b.length - a.length) = s.length - a.length
      from by omega]
    exact h1.symm
  exact key ▸ List.drop_suffix (b.length - a.length) b

theorem permissive_suffix_eq (p : List Char) :
    (".strap".toList.isSuffixOf p
      || ".strap.gz".toList.isSuffixOf p
      || ".strap.gzip".toList.isSuffixOf p
      || ".strap.zst".toList.isSuffixOf p
      || ".strap.zstd".toList.isSuffixOf p
      || ".strap.zip".toList.isSuffixOf p)
      = ".strap".toList.isSuffixOf (stripCompressionSuffix p) := by
  have eGZ : ".strap.gz".toList = ".strap".toList ++ ".gz".toList := by decide
  have eGZIP : ".strap.gzip".toList = ".strap".toList ++ ".gzip".toList := by
    decide
  have eZST : ".strap.zst".toList = ".strap".toList ++ ".zst".toList := by
    decide
  have eZSTD : ".strap.zstd".toList = ".strap".toList ++ ".zstd".toList := by
    decide
  have eZIP : ".strap.zip".toList = ".strap".toList ++ ".zip".toList := by
    decide
  have lGZ : (".gz".toList).length = 3 := by decide
  have lGZIP : (".gzip".toList).length = 5 := by decide
  have lZST : (".zst".toList).length = 4 := by decide
  have lZSTD : (".zstd".toList).length = 5 := by decide
  have lZIP : (".zip".toList).length = 4 := by decide
  rw [Bool.eq_iff_iff]
  simp only [Bool.or_eq_true, List.isSuffixOf_iff_suffix]
  unfold stripCompressionSuffix stripSuffixN
  simp only [List.isSuffixOf_iff_suffix]
  rw [eGZ, eGZIP, eZST, eZSTD, eZIP]
  simp only [suffix_append_iff, lGZ, lGZIP, lZST, lZSTD, lZIP, or_assoc]
  by_cases hgz : ".gz".toList <:+ p
  · simp only [if_pos hgz]
    constructor
    · rintro (h | ⟨_, h⟩ | ⟨hc, _⟩ | ⟨hc, _⟩ | ⟨hc, _⟩ | ⟨hc, _⟩)
      · exact absurd (suffix_of_suffix_le _ _ p hgz h (by decide)) (by decide)
      · exact h
      · exact absurd (suffix_of_suffix_le _ _ p hgz hc (by decide)) (by decide)
      · exact absurd (suffix_of_suffix_le _ _ p hgz hc (by decide)) (by decide)
      · exact absurd (suffix_of_suffix_le _ _ p hgz hc (by decide)) (by decide)
      · exact absurd (suffix_of_suffix_le _ _ p hgz hc (by decide)) (by decide)
    · intro h
      exact Or.inr (Or.inl ⟨hgz, h⟩)
  · rw [if_neg hgz]
    by_cases hgzip : ".gzip".toList <:+ p
    · simp only [if_pos hgzip]
      constructor
      · rintro (h | ⟨hc, _⟩ | ⟨_, h⟩ | ⟨hc, _⟩ | ⟨hc, _⟩ | ⟨hc, _⟩)
        · exact absurd (suffix_of_suffix_le _ _ p hgzip h (by decide)) (by decide)
        · exact absurd hc hgz
        · exact h
        · exact absurd (suffix_of_suffix_le _ _ p hc hgzip (by decide)) (by decide)
        · exact absurd (suffix_of_suffix_le _ _ p hc hgzip (by decide)) (by decide)
        · exact absurd (suffix_of_suffix_le _ _ p hc hgzip (by decide)) (by decide)
      · intro h
        exact Or.inr (Or.inr (Or.inl ⟨hgzip, h⟩))
    · rw [if_neg hgzip]
      by_cases hzst : ".zst".toList <:+ p
      · simp only [if_pos hzst]
        constructor
        · rintro (h | ⟨hc, _⟩ | ⟨hc, _⟩ | ⟨_, h⟩ | ⟨hc, _⟩ | ⟨hc, _⟩)
          · exact absurd (suffix_of_suffix_le _ _ p hzst h (by decide)) (by decide)
          · exact absurd hc hgz
          · exact absurd hc hgzip
          · exact h
          · exact absurd (suffix_of_suffix_le _ _ p hzst hc (by decide)) (by decide)
          · exact absurd (suffix_of_suffix_le _ _ p hzst hc (by decide)) (by decide)
        · intro h
          exact Or.inr (Or.inr (Or.inr (Or.inl ⟨hzst, h⟩)))
      · rw [if_neg hzst]
        by_cases hzstd : ".zstd".toList <:+ p
        · simp only [if_pos hzstd]
          constructor
          · rintro (h | ⟨hc, _⟩ | ⟨hc, _⟩ | ⟨hc, _⟩ | ⟨_, h⟩ | ⟨hc, _⟩)
            · exact absurd (suffix_of_suffix_le _ _ p hzstd h (by decide))
                (by decide)
            · exact absurd hc hgz
            · exact absurd hc hgzip
            · exact absurd hc hzst
            · exact h
            · exact absurd (suffix_of_suffix_le _ _ p hc hzstd (by decide))
                (by decide)
          · intro h
            exact Or.inr (Or.inr (Or.inr (Or.inr (Or.inl ⟨hzstd, h⟩))))
        · rw [if_neg hzstd]
          by_cases hzip : ".zip".toList <:+ p
          · simp only [if_pos hzip]
            constructor
            · rintro (h | ⟨hc, _⟩ | ⟨hc, _⟩ | ⟨hc, _⟩ | ⟨hc, _⟩ | ⟨_, h⟩)
              · exact absurd (suffix_of_suffix_le _ _ p hzip h (by decide))
                  (by decide)
              · exact absurd hc hgz
              · exact absurd hc hgzip
              · exact absurd hc hzst
              · exact absurd hc hzstd
              · exact h
            · intro h
              exact Or.inr (Or.inr (Or.inr (Or.inr (Or.inr ⟨hzip, h⟩))))
          · rw [if_neg hzip]
            constructor
            · rintro (h | ⟨hc, _⟩ | ⟨hc, _⟩ | ⟨hc, _⟩ | ⟨hc, _⟩ | ⟨hc, _⟩)
              · exact h
              · exact absurd hc hgz
              · exact absurd hc hgzip
              · exact absurd hc hzst
              · exact absurd hc hzstd
              · exact absurd hc hzip
            · intro h
              exact Or.inl h

/-- C7: a source is parsed permissively iff its lowercased path, after
stripping any recognized compression suffix (`.gz`, `.gzip`, `.zst`, `.zstd`,
`.zip`), ends in the telemetry suffix `".strap"` — the code's disjunction of
six endings is exactly the spec's strip-then-check rule; and for every line
without the `@strap` substring, non-permissive parsing yields the empty
record. -/
theorem C7_permissive_mode_by_suffix :
    (∀ path : List Char, iterAll path = permissiveSpec path) ∧
    (∀ {V : Type} (pf : List Char → Option V) (line : List Char),
      findStrap (trim line) = none → parse_line pf line false = []) := by
  constructor
  · intro path
    unfold iterAll permissiveSpec
    exact permissive_suffix_eq (lowerL path)
  · intro V pf line h
    unfold parse_line strippedText
    simp [h]

/-- Witness for C7: the mixed-case compressed telemetry path `"X.STRAP.GZ"`
(permissive both ways) and the marker-less line `"no marker here 1.0"`
(empty record in non-permissive mode). -/
theorem C7_permissive_mode_by_suffix_witness :
    iterAll "X.STRAP.GZ".toList = permissiveSpec "X.STRAP.GZ".toList ∧
    findStrap (trim "no marker here 1.0".toList) = none ∧
    parse_line parseF64 "no marker here 1.0".toList false = [] :=
  ⟨C7_permissive_mode_by_suffix.1 "X.STRAP.GZ".toList, by decide,
    C7_permissive_mode_by_suffix.2 parseF64 "no marker here 1.0".toList
      (by decide)⟩

end Strap
